import Mathlib

/-!
Verification of the Healthvoice backend (transcription + retrieval-augmented
QA pipeline).  The Python sources in `src/backend/` are shallowly embedded:
strings are lists of characters, the mutually-exclusive heavy-model state of
`models_ai.py` is a two-flag record with explicit state transitions, and the
retrieval / scoring / scheduling logic of `services.py` is translated into
executable Lean functions.  External collaborators (the embedding model, the
LLM, the job store) enter as explicit parameters (score lists, generation
oracles, queue lists).
-/

namespace Healthvoice

/-! ## Python string primitives

`str.split()`, `str.strip(chars)`, `str.lower()`, `str.startswith` as used by
`services.py`.  Strings are modelled as `List Char`. -/

/-- Python whitespace test for `str.split()` / `str.strip()`. -/
def isWs (c : Char) : Bool := c.isWhitespace

/-- `str.strip(chars)`: remove the characters satisfying `P` from both ends. -/
def dropAround (P : Char → Bool) (l : List Char) : List Char :=
  ((l.dropWhile P).reverse.dropWhile P).reverse

/-- Python `str.strip()` (whitespace from both ends). -/
def pyStrip (l : List Char) : List Char := dropAround isWs l

/-- The punctuation characters stripped by the confidence scorer:
`strip(",.?!")` in `services.py`. -/
def punctChars : List Char := [',', '.', '?', '!']

/-- `w.strip(",.?!")` from the confidence scorer in `process_qa`. -/
def pyStripPunct (l : List Char) : List Char :=
  dropAround (fun c => punctChars.contains c) l

/-- Python `str.lower()` (ASCII case fold suffices for the texts involved). -/
def lowerStr (l : List Char) : List Char := l.map Char.toLower

/-- Worker for Python `str.split()`: accumulate the current word (reversed)
and cut at whitespace, never emitting empty words. -/
def wordsAux : List Char → List Char → List (List Char)
  | cur, [] => if cur.isEmpty then [] else [cur.reverse]
  | cur, c :: cs =>
    if isWs c then
      if cur.isEmpty then wordsAux [] cs else cur.reverse :: wordsAux [] cs
    else
      wordsAux (c :: cur) cs

/-- Python `text.split()` with no argument: split on whitespace runs. -/
def pySplit (l : List Char) : List (List Char) := wordsAux [] l

/-! ## Resource Coordinator (`models_ai.py`)

The module-level singletons `_whisper_model` / `_llm_model` are abstracted to
two loaded-flags; `get_whisper_model` / `get_llm_model` are the state
transitions of lines 62-95 and 105-149 of `models_ai.py` (load outcomes are
irrelevant to residency, so a successful load is modelled; a failed load
leaves even fewer models resident). -/

/-- Residency state of the two heavy models (`_whisper_model is not None`,
`_llm_model is not None`). -/
structure ModelState where
  whisperLoaded : Bool
  llmLoaded : Bool
deriving DecidableEq, Repr

/-- `unload_whisper()`: drop the Whisper handle. -/
def unload_whisper (s : ModelState) : ModelState := { s with whisperLoaded := false }

/-- `unload_llm()`: drop the LLM handle. -/
def unload_llm (s : ModelState) : ModelState := { s with llmLoaded := false }

/-- The auto-swap step at the top of `get_whisper_model`:
`if _llm_model is not None: unload_llm()`. -/
def swapOutLlm (s : ModelState) : ModelState :=
  if s.llmLoaded then unload_llm s else s

/-- The auto-swap step at the top of `get_llm_model`:
`if _whisper_model is not None: unload_whisper()`. -/
def swapOutWhisper (s : ModelState) : ModelState :=
  if s.whisperLoaded then unload_whisper s else s

/-- `get_whisper_model()`: swap out the LLM, then lazily load Whisper. -/
def get_whisper_model (s : ModelState) : ModelState :=
  let s1 := swapOutLlm s
  if s1.whisperLoaded then s1 else { s1 with whisperLoaded := true }

/-- `get_llm_model()`: swap out Whisper, then lazily load the LLM. -/
def get_llm_model (s : ModelState) : ModelState :=
  let s1 := swapOutWhisper s
  if s1.llmLoaded then s1 else { s1 with llmLoaded := true }

/-- One acquisition call: `acquireTranscription` = `get_whisper_model`,
`acquireGeneration` = `get_llm_model`. -/
inductive AcquireCall where
  | transcription
  | generation
deriving DecidableEq, Repr

/-- Apply one acquisition call to the residency state. -/
def applyAcquire (s : ModelState) : AcquireCall → ModelState
  | .transcription => get_whisper_model s
  | .generation => get_llm_model s

/-- Run a sequence of acquisition calls from a starting state. -/
def runAcquires (s : ModelState) (cs : List AcquireCall) : ModelState :=
  cs.foldl applyAcquire s

/-- At most one heavy model resident. -/
def atMostOneLoaded (s : ModelState) : Prop :=
  ¬(s.whisperLoaded = true ∧ s.llmLoaded = true)

theorem llmLoaded_swapOutLlm (s : ModelState) : (swapOutLlm s).llmLoaded = false := by
  unfold swapOutLlm unload_llm
  by_cases h : s.llmLoaded <;> simp [h]

theorem whisperLoaded_swapOutWhisper (s : ModelState) :
    (swapOutWhisper s).whisperLoaded = false := by
  unfold swapOutWhisper unload_whisper
  by_cases h : s.whisperLoaded <;> simp [h]

theorem atMostOne_applyAcquire (s : ModelState) (c : AcquireCall) :
    atMostOneLoaded (applyAcquire s c) := by
  cases c with
  | transcription =>
    have h := llmLoaded_swapOutLlm s
    unfold applyAcquire get_whisper_model atMostOneLoaded
    by_cases hw : (swapOutLlm s).whisperLoaded <;> simp [hw, h]
  | generation =>
    have h := whisperLoaded_swapOutWhisper s
    unfold applyAcquire get_llm_model atMostOneLoaded
    by_cases hl : (swapOutLlm s).llmLoaded <;>
      by_cases hl2 : (swapOutWhisper s).llmLoaded <;> simp [hl, hl2, h]

/-- C1: after any interleaved sequence of `get_whisper_model` /
`get_llm_model` calls containing at least one call, at most one of the two
heavy models is loaded, and each call unloads the other model (auto-swap)
before its own load step runs. -/
theorem acquire_mutual_exclusion (s : ModelState) (pre : List AcquireCall)
    (c : AcquireCall) :
    atMostOneLoaded (runAcquires s (pre ++ [c])) ∧
    (swapOutLlm s).llmLoaded = false ∧
    (swapOutWhisper s).whisperLoaded = false := by
  refine ⟨?_, llmLoaded_swapOutLlm s, whisperLoaded_swapOutWhisper s⟩
  unfold runAcquires
  rw [List.foldl_append]
  exact atMostOne_applyAcquire _ c

/-! ## Retrieval Engine (`services.py`, `process_qa` lines 112-147)

The embedding model and `torch.topk` are external: the walk receives the
score-sorted `(score, sentence)` list as input.  Scores are rationals (the
claims depend only on their order). -/

/-- `sentence_text.strip().lower()`: the dedupe normalisation key. -/
def normSnip (s : List Char) : List Char := lowerStr (pyStrip s)

/-- The retrieval walk: for each `(score, sentence)` pair in order, if
`score > threshold` append the sentence unless its normalisation was already
seen; the first pair at or below the threshold breaks the loop. -/
def retrieveLoop (t : ℚ) : List (List Char) → List (ℚ × List Char) → List (List Char)
  | _, [] => []
  | seen, p :: rest =>
    if t < p.1 then
      if normSnip p.2 ∈ seen then retrieveLoop t seen rest
      else p.2 :: retrieveLoop t (normSnip p.2 :: seen) rest
    else []

/-- `retrieved_contexts` produced by one walk at threshold `t` (seen-set
starts empty). -/
def retrievedContexts (results : List (ℚ × List Char)) (t : ℚ) : List (List Char) :=
  retrieveLoop t [] results

/-- The dedupe part of the walk alone, on an already-truncated sentence
list. -/
def dedupLoop : List (List Char) → List (List Char) → List (List Char)
  | _, [] => []
  | seen, s :: rest =>
    if normSnip s ∈ seen then dedupLoop seen rest
    else s :: dedupLoop (normSnip s :: seen) rest

/-- Seen-set state after the dedupe walk over a sentence list. -/
def seenAfter : List (List Char) → List (List Char) → List (List Char)
  | seen, [] => seen
  | seen, s :: rest =>
    if normSnip s ∈ seen then seenAfter seen rest
    else seenAfter (normSnip s :: seen) rest

/-- Spec-side dedupe (`§4.4` / C7): keep each normalisation class's first
(highest-ranked) original text, discarding all later sentences with the same
normalisation. -/
def dedupSpecKeepFirst : List (List Char) → List (List Char)
  | [] => []
  | s :: rest =>
    s :: dedupSpecKeepFirst (rest.filter (fun x => normSnip x ≠ normSnip s))
termination_by l => l.length
decreasing_by
  simp only [List.length_cons]
  exact Nat.lt_succ_of_le (List.length_filter_le _ _)

theorem retrieveLoop_eq (t : ℚ) (seen : List (List Char))
    (l : List (ℚ × List Char)) :
    retrieveLoop t seen l =
      dedupLoop seen ((l.takeWhile (fun p => decide (t < p.1))).map Prod.snd) := by
  induction l generalizing seen with
  | nil => simp [retrieveLoop, dedupLoop]
  | cons p rest ih =>
    by_cases h : t < p.1
    · by_cases hs : normSnip p.2 ∈ seen <;>
        simp [retrieveLoop, List.takeWhile_cons, h, hs, dedupLoop, ih]
    · simp [retrieveLoop, List.takeWhile_cons, h, dedupLoop]

theorem dedupLoop_append (seen l1 l2 : List (List Char)) :
    dedupLoop seen (l1 ++ l2) =
      dedupLoop seen l1 ++ dedupLoop (seenAfter seen l1) l2 := by
  induction l1 generalizing seen with
  | nil => simp [dedupLoop, seenAfter]
  | cons s rest ih =>
    by_cases h : normSnip s ∈ seen <;>
      simp [dedupLoop, seenAfter, h, ih]

theorem takeWhile_mono_exists {α : Type} (p q : α → Bool)
    (hpq : ∀ x, q x = true → p x = true) (l : List α) :
    ∃ rest, l.takeWhile p = l.takeWhile q ++ rest := by
  induction l with
  | nil => exact ⟨[], rfl⟩
  | cons a l ih =>
    by_cases hq : q a = true
    · obtain ⟨rest, hrest⟩ := ih
      exact ⟨rest, by simp [List.takeWhile_cons, hpq a hq, hq, hrest]⟩
    · refine ⟨(a :: l).takeWhile p, ?_⟩
      simp [List.takeWhile_cons, hq]

/-- C2: for thresholds `t1 < t2`, the retained-evidence list at the stricter
threshold `t2` is an initial segment (hence a sublist, in the same rank
order) of the list at `t1`. -/
theorem retrieval_threshold_monotone (results : List (ℚ × List Char))
    (t1 t2 : ℚ) (h : t1 < t2) :
    (∃ rest, retrievedContexts results t1 = retrievedContexts results t2 ++ rest) ∧
    List.Sublist (retrievedContexts results t2) (retrievedContexts results t1) := by
  have hmono : ∀ p : ℚ × List Char,
      decide (t2 < p.1) = true → decide (t1 < p.1) = true := by
    intro p hp
    simp only [decide_eq_true_eq] at *
    exact lt_trans h hp
  obtain ⟨rest, hrest⟩ :=
    takeWhile_mono_exists (fun p => decide (t1 < p.1)) (fun p => decide (t2 < p.1))
      hmono results
  have hsplit : retrievedContexts results t1 = retrievedContexts results t2 ++
      dedupLoop
        (seenAfter [] ((results.takeWhile (fun p => decide (t2 < p.1))).map Prod.snd))
        (rest.map Prod.snd) := by
    unfold retrievedContexts
    rw [retrieveLoop_eq, retrieveLoop_eq, hrest, List.map_append, dedupLoop_append]
  refine ⟨⟨_, hsplit⟩, ?_⟩
  rw [hsplit]
  exact List.sublist_append_left _ _

/-- Witness for C2 at a concrete score list and the configured thresholds. -/
theorem retrieval_threshold_monotone_witness :
    (∃ rest, retrievedContexts [((1:ℚ)/2, ['a']), ((7:ℚ)/20, ['b'])] (3/10) =
      retrievedContexts [((1:ℚ)/2, ['a']), ((7:ℚ)/20, ['b'])] (4/10) ++ rest) ∧
    List.Sublist (retrievedContexts [((1:ℚ)/2, ['a']), ((7:ℚ)/20, ['b'])] (4/10))
      (retrievedContexts [((1:ℚ)/2, ['a']), ((7:ℚ)/20, ['b'])] (3/10)) :=
  retrieval_threshold_monotone _ (3/10) (4/10) (by norm_num)

theorem dedupLoop_nodup (l : List (List Char)) (seen : List (List Char)) :
    ((dedupLoop seen l).map normSnip).Nodup ∧
      ∀ x ∈ dedupLoop seen l, normSnip x ∉ seen := by
  induction l generalizing seen with
  | nil => simp [dedupLoop]
  | cons s rest ih =>
    by_cases h : normSnip s ∈ seen
    · simpa only [dedupLoop, if_pos h] using ih seen
    · simp only [dedupLoop, if_neg h]
      obtain ⟨hnd, hseen⟩ := ih (normSnip s :: seen)
      refine ⟨?_, ?_⟩
      · simp only [List.map_cons, List.nodup_cons]
        refine ⟨?_, hnd⟩
        intro hmem
        obtain ⟨x, hx, hxe⟩ := List.mem_map.mp hmem
        exact (hseen x hx) (hxe ▸ List.mem_cons_self _ _)
      · intro x hx
        rcases List.mem_cons.mp hx with rfl | hx'
        · exact h
        · exact fun hmem => (hseen x hx') (List.mem_cons_of_mem _ hmem)

theorem dedupLoop_eq_keepFirst (l : List (List Char)) (seen : List (List Char)) :
    dedupLoop seen l =
      dedupSpecKeepFirst (l.filter (fun x => normSnip x ∉ seen)) := by
  induction l generalizing seen with
  | nil => simp [dedupLoop, dedupSpecKeepFirst]
  | cons s rest ih =>
    by_cases h : normSnip s ∈ seen
    · simp only [dedupLoop, if_pos h, List.filter_cons, decide_eq_true_eq]
      rw [if_neg (by simp [h])]
      exact ih seen
    · simp only [dedupLoop, if_neg h, List.filter_cons]
      rw [if_pos (by simp [h])]
      rw [dedupSpecKeepFirst]
      have hf : (rest.filter (fun x => normSnip x ∉ seen)).filter
          (fun x => normSnip x ≠ normSnip s)
          = rest.filter (fun x => normSnip x ∉ normSnip s :: seen) := by
        rw [List.filter_filter]
        apply List.filter_congr
        intro x _
        by_cases h1 : normSnip x = normSnip s <;>
          by_cases h2 : normSnip x ∈ seen <;> simp [h1, h2]
      rw [hf, ih]

/-- C7: the retained evidence list of one retrieval walk has pairwise
distinct normalisations (no two entries agree after trim + lowercase), and
equals the keep-first-occurrence dedupe of the above-threshold sentence
run — i.e. the entry kept for each normalisation class is the
highest-ranked original text. -/
theorem retrieval_dedup (results : List (ℚ × List Char)) (t : ℚ) :
    ((retrievedContexts results t).map normSnip).Nodup ∧
    retrievedContexts results t =
      dedupSpecKeepFirst
        ((results.takeWhile (fun p => decide (t < p.1))).map Prod.snd) := by
  constructor
  · unfold retrievedContexts
    rw [retrieveLoop_eq]
    exact (dedupLoop_nodup _ []).1
  · unfold retrievedContexts
    rw [retrieveLoop_eq, dedupLoop_eq_keepFirst]
    congr 1
    apply List.filter_eq_self.mpr
    intro x _
    simp

/-! ## Confidence scoring (`services.py`, `process_qa` lines 159-177)

`normalize_tokens`, the fallback-phrase special case and the lexical-overlap
fraction.  Scores are rationals. -/

/-- `normalize_tokens(text)`: split on whitespace, drop words that strip to
nothing, lowercase and punctuation-strip the rest. -/
def normalizeTokens (text : List Char) : List (List Char) :=
  ((pySplit text).filter (fun w => !(pyStripPunct w).isEmpty)).map
    (fun w => pyStripPunct (lowerStr w))

/-- The fixed no-information fallback phrases checked against
`answer.strip()`. -/
def fallbackPhrases : List (List Char) :=
  [String.toList "-", String.toList "Tidak disebutkan", String.toList "Tidak ada"]

/-- `match_count / len(ans_tokens)` over the context token set. -/
def overlapFraction (ansTokens ctxTokens : List (List Char)) : ℚ :=
  (ansTokens.countP (fun w => decide (w ∈ ctxTokens)) : ℚ) / ansTokens.length

/-- The confidence score computed by `process_qa` (stored as
`entry.bleu_score`). -/
def confidenceScore (answer context : List Char) : ℚ :=
  let ansTokens := normalizeTokens answer
  let ctxTokens := normalizeTokens context
  if ansTokens.isEmpty then 0
  else if pyStrip answer ∈ fallbackPhrases then 1
  else overlapFraction ansTokens ctxTokens

theorem mem_dropWhile_of_neg (p : Char → Bool) (l : List Char) (c : Char)
    (hc : c ∈ l) (hp : p c = false) : c ∈ l.dropWhile p := by
  induction l with
  | nil => cases hc
  | cons a l ih =>
    rcases List.mem_cons.mp hc with rfl | h
    · simp [List.dropWhile_cons, hp]
    · by_cases ha : p a = true
      · simpa [List.dropWhile_cons, ha] using ih h
      · simp only [Bool.not_eq_true] at ha
        simp [List.dropWhile_cons, ha, h]

theorem mem_of_mem_dropWhile (p : Char → Bool) (l : List Char) (c : Char)
    (hc : c ∈ l.dropWhile p) : c ∈ l := by
  induction l with
  | nil => simp [List.dropWhile] at hc
  | cons a l ih =>
    by_cases ha : p a = true
    · rw [List.dropWhile_cons, if_pos ha] at hc
      exact List.mem_cons_of_mem _ (ih hc)
    · simp only [Bool.not_eq_true] at ha
      rw [List.dropWhile_cons, ha] at hc
      simpa using hc

theorem all_of_dropAround_eq_nil (P : Char → Bool) (l : List Char)
    (h : dropAround P l = []) : ∀ c ∈ l, P c = true := by
  intro c hc
  by_contra hne
  have hP : P c = false := by simpa using hne
  have h1 : c ∈ l.dropWhile P := mem_dropWhile_of_neg P l c hc hP
  have h2 : c ∈ (l.dropWhile P).reverse := List.mem_reverse.mpr h1
  have h3 : c ∈ (l.dropWhile P).reverse.dropWhile P :=
    mem_dropWhile_of_neg P _ c h2 hP
  have h4 : (l.dropWhile P).reverse.dropWhile P = [] := by
    have := congrArg List.reverse h
    simpa [dropAround] using this
  rw [h4] at h3
  cases h3

theorem mem_of_mem_dropAround (P : Char → Bool) (l : List Char) (c : Char)
    (hc : c ∈ dropAround P l) : c ∈ l := by
  unfold dropAround at hc
  have h1 := List.mem_reverse.mp hc
  have h2 := mem_of_mem_dropWhile P _ c h1
  have h3 := List.mem_reverse.mp h2
  exact mem_of_mem_dropWhile P l c h3

theorem mem_word_of_mem_cur (cur cs : List Char) (c : Char)
    (hc : c ∈ cur) : ∃ w ∈ wordsAux cur cs, c ∈ w := by
  induction cs generalizing cur with
  | nil =>
    refine ⟨cur.reverse, ?_, List.mem_reverse.mpr hc⟩
    have hne : cur.isEmpty = false := by cases cur with
      | nil => cases hc
      | cons a l => simp [List.isEmpty]
    simp [wordsAux, hne]
  | cons x cs ih =>
    have hne : cur.isEmpty = false := by cases cur with
      | nil => cases hc
      | cons a l => simp [List.isEmpty]
    by_cases hx : isWs x = true
    · refine ⟨cur.reverse, ?_, List.mem_reverse.mpr hc⟩
      simp [wordsAux, hx, hne]
    · simp only [Bool.not_eq_true] at hx
      have := ih (x :: cur) (List.mem_cons_of_mem _ hc)
      simpa [wordsAux, hx] using this

theorem mem_word_aux (c : Char) (hw : isWs c = false) :
    ∀ (l cur : List Char), c ∈ l → ∃ w ∈ wordsAux cur l, c ∈ w := by
  intro l
  induction l with
  | nil => intro cur hc; cases hc
  | cons x cs ih =>
    intro cur hc
    by_cases hx : isWs x = true
    · have hcc : c ∈ cs := by
        rcases List.mem_cons.mp hc with rfl | h
        · rw [hw] at hx; cases hx
        · exact h
      by_cases hcur : cur.isEmpty = true
      · have := ih [] hcc
        simpa [wordsAux, hx, hcur] using this
      · simp only [Bool.not_eq_true] at hcur
        obtain ⟨w, hw1, hw2⟩ := ih [] hcc
        refine ⟨w, ?_, hw2⟩
        simp only [wordsAux, hx, hcur]
        simp [hw1]
    · simp only [Bool.not_eq_true] at hx
      rcases List.mem_cons.mp hc with rfl | h
      · have := mem_word_of_mem_cur (c :: cur) cs c (List.mem_cons_self _ _)
        simpa [wordsAux, hx] using this
      · have := ih (x :: cur) h
        simpa [wordsAux, hx] using this

/-- An answer whose stripped form is one of the fallback phrases always has
at least one normalised token (each phrase contains a character that is
neither whitespace nor scored punctuation). -/
theorem normalizeTokens_ne_nil_of_fallback (a : List Char)
    (h : pyStrip a ∈ fallbackPhrases) : normalizeTokens a ≠ [] := by
  intro hnil
  have hfilter : (pySplit a).filter (fun w => !(pyStripPunct w).isEmpty) = [] := by
    unfold normalizeTokens at hnil
    exact List.map_eq_nil_iff.mp hnil
  have hwords : ∀ w ∈ pySplit a, pyStripPunct w = [] := by
    intro w hw
    have := List.filter_eq_nil_iff.mp hfilter w hw
    simpa [List.isEmpty_iff] using this
  obtain ⟨c, hcmem, hcw, hcp⟩ :
      ∃ c, c ∈ pyStrip a ∧ isWs c = false ∧ punctChars.contains c = false := by
    simp only [fallbackPhrases, List.mem_cons, List.not_mem_nil, or_false] at h
    rcases h with h | h | h <;> rw [h]
    · exact ⟨'-', by decide, by decide, by decide⟩
    · exact ⟨'T', by decide, by decide, by decide⟩
    · exact ⟨'T', by decide, by decide, by decide⟩
  have hca : c ∈ a := mem_of_mem_dropAround isWs a c hcmem
  obtain ⟨w, hw1, hw2⟩ := mem_word_aux c hcw a [] hca
  have hwnil := hwords w hw1
  have := all_of_dropAround_eq_nil _ _ hwnil c hw2
  rw [hcp] at this
  cases this

/-- C3: the confidence score is a total function of the `(answer, context)`
pair (hence deterministic), always lies in `[0,1]`, is `0` exactly when the
answer has no normalised tokens, is `1` whenever the stripped answer is a
fallback phrase, and is otherwise the fraction of answer tokens occurring in
the context token set. -/
theorem confidence_score_spec (answer context : List Char) :
    0 ≤ confidenceScore answer context ∧
    confidenceScore answer context ≤ 1 ∧
    (normalizeTokens answer = [] → confidenceScore answer context = 0) ∧
    (pyStrip answer ∈ fallbackPhrases → confidenceScore answer context = 1) ∧
    (normalizeTokens answer ≠ [] → pyStrip answer ∉ fallbackPhrases →
      confidenceScore answer context =
        overlapFraction (normalizeTokens answer) (normalizeTokens context)) := by
  by_cases hnil : normalizeTokens answer = []
  · have hs : confidenceScore answer context = 0 := by
      simp [confidenceScore, hnil]
    refine ⟨by rw [hs], by rw [hs]; norm_num, fun _ => hs, ?_, fun h _ => absurd hnil h⟩
    intro hfb
    exact absurd hnil (normalizeTokens_ne_nil_of_fallback answer hfb)
  · have hne : (normalizeTokens answer).isEmpty = false := by
      simpa [List.isEmpty_iff] using hnil
    by_cases hfb : pyStrip answer ∈ fallbackPhrases
    · have hs : confidenceScore answer context = 1 := by
        simp [confidenceScore, hne, hfb]
      exact ⟨by rw [hs]; norm_num, le_of_eq hs, fun h => absurd h hnil,
        fun _ => hs, fun _ h => absurd hfb h⟩
    · have hs : confidenceScore answer context =
          overlapFraction (normalizeTokens answer) (normalizeTokens context) := by
        simp [confidenceScore, hne, hfb]
      have hlen : 0 < ((normalizeTokens answer).length : ℚ) := by
        have := List.length_pos.mpr hnil
        exact_mod_cast this
      have hfrac0 : 0 ≤ overlapFraction (normalizeTokens answer) (normalizeTokens context) := by
        unfold overlapFraction
        positivity
      have hfrac1 : overlapFraction (normalizeTokens answer) (normalizeTokens context) ≤ 1 := by
        unfold overlapFraction
        rw [div_le_one hlen]
        exact_mod_cast List.countP_le_length _
      exact ⟨hs ▸ hfrac0, hs ▸ hfrac1, fun h => absurd h hnil,
        fun h => absurd h hfb, fun _ _ => hs⟩

/-- Witness for C3 at a concrete fallback answer. -/
theorem confidence_score_spec_witness :
    confidenceScore (String.toList "Tidak ada") (String.toList "abc") = 1 :=
  (confidence_score_spec (String.toList "Tidak ada")
    (String.toList "abc")).2.2.2.1 (by decide)

/-! ## QA Pipeline (`services.py`, `process_qa` lines 77-201)

The LLM is external: generation is an oracle from the context string to
either an answer or a failure carrying a class from the spec §7 taxonomy
(`process_qa` itself sees only a bare exception). -/

/-- Job status enum (`ProcessingStatus` in `database.py`). -/
inductive Status where
  | pending
  | queued
  | processing
  | completed
  | error
deriving DecidableEq, Repr

/-- Failure classes of the spec §7 taxonomy. -/
inductive FailClass where
  | contextLimit
  | resourceLoad
  | acceleratorExhausted
  | other
deriving DecidableEq, Repr

/-- A generation failure: its class and its message text (`str(e)`). -/
structure GenFailure where
  cls : FailClass
  msg : List Char
deriving DecidableEq, Repr

/-- Generation oracle: `generate_answer_safe` as a function of the context
(the question is fixed for the duration of one job). -/
def GenOracle : Type := List Char → Except GenFailure (List Char)

/-- `"Tidak ada informasi relevan ditemukan dalam transkrip."` (line 145). -/
def noInfoPlaceholder : List Char :=
  String.toList "Tidak ada informasi relevan ditemukan dalam transkrip."

/-- Python `"\n---\n".join(retrieved_contexts)`. -/
def joinContexts : List (List Char) → List Char
  | [] => []
  | [s] => s
  | s :: rest => s ++ String.toList "\n---\n" ++ joinContexts rest

/-- The context built for one attempt at threshold `t` (lines 144-147). -/
def contextAt (results : List (ℚ × List Char)) (t : ℚ) : List Char :=
  let ctxs := retrievedContexts results t
  if ctxs.isEmpty then noInfoPlaceholder else joinContexts ctxs

/-- Final record state produced by the attempt loop. -/
structure QAOutcome where
  finalStatus : Status
  answer : Option (List Char)
  contextUsed : Option (List Char)
  bleuScore : Option ℚ
  attemptsUsed : Nat
deriving DecidableEq, Repr

/-- `f"Error (Context Limit): {str(e)}"` (line 191). -/
def contextLimitAnswer (e : GenFailure) : List Char :=
  String.toList "Error (Context Limit): " ++ e.msg

/-- The threshold retry loop of `process_qa` (lines 114-195): build and
record the context, attempt generation; on success score the answer and
complete; on any exception retry at the next threshold, or mark the job
Error when this was the last threshold. -/
def attemptLoop (gen : GenOracle) (results : List (ℚ × List Char)) :
    ℚ → List ℚ → QAOutcome
  | t, rest =>
    let context := contextAt results t
    match gen context with
    | .ok answer =>
      { finalStatus := .completed, answer := some answer,
        contextUsed := some context,
        bleuScore := some (confidenceScore answer context), attemptsUsed := 1 }
    | .error e =>
      match rest with
      | [] =>
        { finalStatus := .error, answer := some (contextLimitAnswer e),
          contextUsed := some context, bleuScore := none, attemptsUsed := 1 }
      | t2 :: rest2 =>
        let o := attemptLoop gen results t2 rest2
        { o with attemptsUsed := o.attemptsUsed + 1 }

/-- `thresholds_to_try = [0.3, 0.4]` (line 112). -/
def thresholdsToTry : List ℚ := [mkRat 3 10, mkRat 4 10]

/-- Truthiness of `transcript.raw_text` (`not transcript.raw_text`). -/
def rawTextUsable : Option (List Char) → Bool
  | none => false
  | some t => !t.isEmpty

/-- The guard `not transcript or not transcript.raw_text` (line 84): outer
`none` is a missing transcript row, the inner option its nullable text. -/
def transcriptUsable : Option (Option (List Char)) → Bool
  | none => false
  | some rt => rawTextUsable rt

/-- Result of one full `process_qa` run on an existing queued entry: the
sequence of committed statuses plus the final record fields. -/
structure QARun where
  statusTrace : List Status
  answer : Option (List Char)
  contextUsed : Option (List Char)
  bleuScore : Option ℚ
  attemptsUsed : Nat
deriving DecidableEq, Repr

/-- `"Maaf, transkrip belum selesai atau tidak ditemukan."` (line 86). -/
def transcriptMissingAnswer : List Char :=
  String.toList "Maaf, transkrip belum selesai atau tidak ditemukan."

/-- `process_qa` for an existing entry: `transcript` is the owning row and
its `raw_text`, `results` the score-sorted sentence list the embedder
produces from that text, `gen` the generation oracle. -/
def process_qa (transcript : Option (Option (List Char))) (gen : GenOracle)
    (results : List (ℚ × List Char)) : QARun :=
  if transcriptUsable transcript then
    match thresholdsToTry with
    | [] =>
      { statusTrace := [.processing], answer := none, contextUsed := none,
        bleuScore := none, attemptsUsed := 0 }
    | t :: rest =>
      let o := attemptLoop gen results t rest
      { statusTrace := [.processing, o.finalStatus], answer := o.answer,
        contextUsed := o.contextUsed, bleuScore := o.bleuScore,
        attemptsUsed := o.attemptsUsed }
  else
    { statusTrace := [.error], answer := some transcriptMissingAnswer,
      contextUsed := none, bleuScore := none, attemptsUsed := 0 }

theorem transcriptUsable_of_ne_nil (transcript : List Char)
    (hne : transcript ≠ []) :
    transcriptUsable (some (some transcript)) = true := by
  simp [transcriptUsable, rawTextUsable, List.isEmpty_iff, hne]

/-- C4 (amended): within one QA job, a generation failure of any class on
the first (non-final) threshold advances the retry loop to the second
threshold; only a failure on the final threshold aborts the job with status
Error and the `Error (Context Limit):` message. -/
theorem generation_failure_retry (gen : GenOracle) (transcript : List Char)
    (results : List (ℚ × List Char)) (e : GenFailure)
    (hne : transcript ≠ [])
    (h1 : gen (contextAt results (mkRat 3 10)) = .error e) :
    (process_qa (some (some transcript)) gen results).attemptsUsed = 2 ∧
    ((∃ ans, gen (contextAt results (mkRat 4 10)) = .ok ans ∧
        (process_qa (some (some transcript)) gen results).statusTrace =
          [Status.processing, Status.completed] ∧
        (process_qa (some (some transcript)) gen results).answer = some ans) ∨
     (∃ e2, gen (contextAt results (mkRat 4 10)) = .error e2 ∧
        (process_qa (some (some transcript)) gen results).statusTrace =
          [Status.processing, Status.error] ∧
        (process_qa (some (some transcript)) gen results).answer =
          some (contextLimitAnswer e2))) := by
  have husable := transcriptUsable_of_ne_nil transcript hne
  cases h2 : gen (contextAt results (mkRat 4 10)) with
  | ok ans =>
    refine ⟨?_, Or.inl ⟨ans, rfl, ?_, ?_⟩⟩ <;>
      simp [process_qa, husable, thresholdsToTry, attemptLoop, h1, h2]
  | error e2 =>
    refine ⟨?_, Or.inr ⟨e2, rfl, ?_, ?_⟩⟩ <;>
      simp [process_qa, husable, thresholdsToTry, attemptLoop, h1, h2]

/-- Oracle for the C4 counterexample and witness: a resource-load
(non size-class) failure on the lenient-threshold context, success on the
strict one. -/
def c4Gen : GenOracle := fun ctx =>
  if ctx = ['a'] then
    .error ⟨.resourceLoad, String.toList "model load failed"⟩
  else
    .ok (String.toList "-")

/-- Score list for the C4 counterexample: one sentence above `0.3` but not
above `0.4`, so the two attempts see different contexts. -/
def c4Results : List (ℚ × List Char) := [(mkRat 7 20, ['a'])]

/-- C4 counterexample: a generation failure whose class is
`resourceLoad` — not a size/limit-class error — is retried at the stricter
threshold instead of aborting, and the job completes on the second attempt. -/
theorem generation_error_class_counterexample :
    c4Gen (contextAt c4Results (mkRat 3 10)) =
      .error ⟨FailClass.resourceLoad, String.toList "model load failed"⟩ ∧
    (process_qa (some (some ['t'])) c4Gen c4Results).attemptsUsed = 2 ∧
    (process_qa (some (some ['t'])) c4Gen c4Results).statusTrace =
      [Status.processing, Status.completed] := by
  refine ⟨rfl, by decide, by decide⟩

/-- Witness for the amended C4 at the concrete counterexample inputs. -/
theorem generation_failure_retry_witness :
    (process_qa (some (some ['t'])) c4Gen c4Results).attemptsUsed = 2 ∧
    ((∃ ans, c4Gen (contextAt c4Results (mkRat 4 10)) = .ok ans ∧
        (process_qa (some (some ['t'])) c4Gen c4Results).statusTrace =
          [Status.processing, Status.completed] ∧
        (process_qa (some (some ['t'])) c4Gen c4Results).answer = some ans) ∨
     (∃ e2, c4Gen (contextAt c4Results (mkRat 4 10)) = .error e2 ∧
        (process_qa (some (some ['t'])) c4Gen c4Results).statusTrace =
          [Status.processing, Status.error] ∧
        (process_qa (some (some ['t'])) c4Gen c4Results).answer =
          some (contextLimitAnswer e2))) :=
  generation_failure_retry c4Gen ['t'] c4Results
    ⟨.resourceLoad, String.toList "model load failed"⟩ (by decide) rfl

/-- C6: when retrieval at the first threshold yields no evidence, the
recorded context is the fixed placeholder literal; if generation then
returns a fallback phrase, the confidence score is `1` (fallback special
case) and the job completes. -/
theorem no_evidence_fallback (transcript : List Char) (gen : GenOracle)
    (results : List (ℚ × List Char)) (ans : List Char)
    (hne : transcript ≠ [])
    (hempty : retrievedContexts results (mkRat 3 10) = [])
    (hgen : gen noInfoPlaceholder = .ok ans)
    (hfb : pyStrip ans ∈ fallbackPhrases) :
    (process_qa (some (some transcript)) gen results).contextUsed =
      some noInfoPlaceholder ∧
    (process_qa (some (some transcript)) gen results).bleuScore = some 1 ∧
    (process_qa (some (some transcript)) gen results).statusTrace =
      [Status.processing, Status.completed] := by
  have husable := transcriptUsable_of_ne_nil transcript hne
  have hctx : contextAt results (mkRat 3 10) = noInfoPlaceholder := by
    simp [contextAt, hempty]
  have hscore : confidenceScore ans noInfoPlaceholder = 1 :=
    (confidence_score_spec ans noInfoPlaceholder).2.2.2.1 hfb
  refine ⟨?_, ?_, ?_⟩ <;>
    simp [process_qa, husable, thresholdsToTry, attemptLoop, hctx, hgen, hscore]

/-- Witness for C6 at concrete inputs (empty sentence list, oracle answering
the `-` fallback). -/
theorem no_evidence_fallback_witness :
    (process_qa (some (some ['t'])) (fun _ => .ok ['-']) []).contextUsed =
      some noInfoPlaceholder ∧
    (process_qa (some (some ['t'])) (fun _ => .ok ['-']) []).bleuScore = some 1 ∧
    (process_qa (some (some ['t'])) (fun _ => .ok ['-']) []).statusTrace =
      [Status.processing, Status.completed] :=
  no_evidence_fallback ['t'] (fun _ => .ok ['-']) [] ['-']
    (by decide) (by decide) rfl (by decide)

/-- C8 (amended): a QA job enters Processing only when its owning transcript
row exists and has non-empty produced text; when the row or its text is
missing, the job leaves Queued directly to Error with the fixed
transcript-missing answer. -/
theorem qa_queued_guard (transcript : Option (Option (List Char)))
    (gen : GenOracle) (results : List (ℚ × List Char)) :
    (Status.processing ∈ (process_qa transcript gen results).statusTrace →
      transcriptUsable transcript = true) ∧
    (transcriptUsable transcript = false →
      (process_qa transcript gen results).statusTrace = [Status.error] ∧
      (process_qa transcript gen results).answer =
        some transcriptMissingAnswer) := by
  by_cases h : transcriptUsable transcript = true
  · exact ⟨fun _ => h, fun hf => absurd h (by simp [hf])⟩
  · have hf : transcriptUsable transcript = false := by simpa using h
    constructor
    · intro hmem
      rw [process_qa, if_neg (by simp [hf])] at hmem
      simp at hmem
    · intro _
      rw [process_qa, if_neg (by simp [hf])]
      exact ⟨rfl, rfl⟩

/-- Witness for the amended C8 at a concrete empty-text transcript. -/
theorem qa_queued_guard_witness :
    (process_qa (some (some [])) (fun _ => .ok []) []).statusTrace =
      [Status.error] ∧
    (process_qa (some (some [])) (fun _ => .ok []) []).answer =
      some transcriptMissingAnswer :=
  (qa_queued_guard (some (some [])) (fun _ => .ok []) []).2 (by decide)

/-- C8 counterexample: for a queued QA entry whose transcript row exists but
has empty produced text, `process_qa` still moves the job out of Queued (to
Error), refuting the claim that a job leaves Queued only when the text is
non-empty. -/
theorem qa_leaves_queued_counterexample :
    ¬ (∀ (transcript : Option (Option (List Char))) (gen : GenOracle)
        (results : List (ℚ × List Char)),
        (process_qa transcript gen results).statusTrace ≠ [] →
        transcriptUsable transcript = true) := by
  intro h
  have := h (some (some [])) (fun _ => .ok []) [] (by decide)
  exact absurd this (by decide)

/-! ## Scheduler Loop (`services.py`, `background_worker` lines 203-225) -/

/-- Action taken by one iteration of `background_worker`. -/
inductive WorkerAction where
  | processQA (id : Nat)
  | processTranscription (id : Nat)
  | sleepOne
deriving DecidableEq, Repr

/-- One scheduler iteration: take the first queued QA entry if any (then
`continue`, no sleep), else the first queued transcript (then `continue`),
else `asyncio.sleep(1)`.  The queue arguments are the job store's
status-Queued rows in stable submission order. -/
def workerStep (qaQueued txQueued : List Nat) : WorkerAction :=
  match qaQueued with
  | q :: _ => .processQA q
  | [] =>
    match txQueued with
    | t :: _ => .processTranscription t
    | [] => .sleepOne

/-- C5: with at least one queued QA job and at least one queued
transcription job, the iteration processes the first queued QA job and does
not sleep; the fixed one-unit sleep happens exactly when both queues are
empty. -/
theorem worker_prioritizes_qa (qaQueued txQueued : List Nat)
    (hqa : qaQueued ≠ []) (_htx : txQueued ≠ []) :
    (∃ q rest, qaQueued = q :: rest ∧
      workerStep qaQueued txQueued = .processQA q) ∧
    workerStep qaQueued txQueued ≠ .sleepOne ∧
    (∀ (qa tx : List Nat), workerStep qa tx = .sleepOne ↔ qa = [] ∧ tx = []) := by
  cases qaQueued with
  | nil => exact absurd rfl hqa
  | cons q rest =>
    refine ⟨⟨q, rest, rfl, rfl⟩, by simp [workerStep], ?_⟩
    intro qa tx
    cases qa with
    | nil =>
      cases tx with
      | nil => simp [workerStep]
      | cons t ts => simp [workerStep]
    | cons a as => simp [workerStep]

/-- Witness for C5 with one job queued on each side. -/
theorem worker_prioritizes_qa_witness :
    (∃ q rest, [7] = q :: rest ∧ workerStep [7] [9] = .processQA q) ∧
    workerStep [7] [9] ≠ .sleepOne ∧
    (∀ (qa tx : List Nat), workerStep qa tx = .sleepOne ↔ qa = [] ∧ tx = []) :=
  worker_prioritizes_qa [7] [9] (by decide) (by decide)

/-! ## Transcription Pipeline: automated question injection
(`services.py`, `process_transcription` lines 44-69) -/

/-- Parse one template line: strip it; skip it when empty, a `#` comment,
or without `"|"`; otherwise `split("|", 1)` and strip both parts. -/
def parseTemplateLine (line : List Char) : Option (List Char × List Char) :=
  let l := pyStrip line
  if l.isEmpty then none
  else if l.head? = some '#' then none
  else if '|' ∈ l then
    some (pyStrip (l.takeWhile (fun c => c ≠ '|')),
          pyStrip ((l.dropWhile (fun c => c ≠ '|')).tail))
  else none

/-- The well-formed `(label, prompt)` pairs of the template file, in line
order. -/
def templatePairs (lines : List (List Char)) : List (List Char × List Char) :=
  lines.filterMap parseTemplateLine

/-- The trimmed labels of the well-formed lines, in line order. -/
def templateLabels (lines : List (List Char)) : List (List Char) :=
  (templatePairs lines).map Prod.fst

/-- Python dict assignment `d[k] = v` on an insertion-ordered association
list: update in place when the key exists, else append. -/
def dictInsert (m : List (List Char × List Char)) (k v : List Char) :
    List (List Char × List Char) :=
  if m.any (fun p => p.1 = k) then
    m.map (fun p => if p.1 = k then (k, v) else p)
  else m ++ [(k, v)]

/-- `automated_questions`: the insertion-ordered dict built from the
template file. -/
def automatedQuestions (lines : List (List Char)) :
    List (List Char × List Char) :=
  (templatePairs lines).foldl (fun m p => dictInsert m p.1 p.2) []

/-- A QA row created by `process_transcription` (question text and initial
status; the transcript id is the enclosing record's). -/
structure NewQAEntry where
  question : List Char
  status : Status
deriving DecidableEq, Repr

/-- The QA entries enqueued after a successful transcription: one per dict
entry, question `f"{label}: {prompt}"`, status Queued. -/
def enqueuedQAEntries (lines : List (List Char)) : List NewQAEntry :=
  (automatedQuestions lines).map
    (fun p => { question := p.1 ++ String.toList ": " ++ p.2, status := .queued })

/-- First value stored under key `k`. -/
def lookupVal (m : List (List Char × List Char)) (k : List Char) :
    Option (List Char) :=
  (m.find? (fun p => p.1 = k)).map Prod.snd

/-- The prompt of the last well-formed line carrying label `k`. -/
def lastAssoc (ps : List (List Char × List Char)) (k : List Char) :
    Option (List Char) :=
  (ps.reverse.find? (fun p => p.1 = k)).map Prod.snd

theorem keysOf_dictInsert_map (m : List (List Char × List Char))
    (k v : List Char) :
    (m.map (fun p => if p.1 = k then (k, v) else p)).map Prod.fst =
      m.map Prod.fst := by
  induction m with
  | nil => rfl
  | cons p m ih =>
    by_cases h : p.1 = k <;> simp [h, ih]

theorem any_eq_mem_keys (m : List (List Char × List Char)) (k : List Char) :
    m.any (fun p => decide (p.1 = k)) = true ↔ k ∈ m.map Prod.fst := by
  rw [List.any_eq_true]
  simp only [decide_eq_true_eq, List.mem_map]

theorem keysOf_dictInsert (m : List (List Char × List Char)) (k v : List Char) :
    (dictInsert m k v).map Prod.fst =
      if k ∈ m.map Prod.fst then m.map Prod.fst else m.map Prod.fst ++ [k] := by
  by_cases h : k ∈ m.map Prod.fst
  · have ha : m.any (fun p => decide (p.1 = k)) = true :=
      (any_eq_mem_keys m k).mpr h
    rw [if_pos h]
    unfold dictInsert
    rw [if_pos ha]
    exact keysOf_dictInsert_map m k v
  · have ha : ¬ m.any (fun p => decide (p.1 = k)) = true := by
      rw [any_eq_mem_keys]; exact h
    rw [if_neg h]
    unfold dictInsert
    rw [if_neg ha]
    simp

theorem keys_nodup_dictInsert (m : List (List Char × List Char))
    (k v : List Char) (h : (m.map Prod.fst).Nodup) :
    ((dictInsert m k v).map Prod.fst).Nodup := by
  rw [keysOf_dictInsert]
  by_cases hk : k ∈ m.map Prod.fst
  · simpa [hk] using h
  · rw [if_neg hk, List.nodup_append]
    refine ⟨h, List.nodup_singleton k, ?_⟩
    intro x hx hx1
    rw [List.mem_singleton] at hx1
    exact hk (hx1 ▸ hx)

theorem mem_keys_dictInsert (m : List (List Char × List Char))
    (k v k' : List Char) :
    (k' ∈ (dictInsert m k v).map Prod.fst) ↔ k' ∈ m.map Prod.fst ∨ k' = k := by
  rw [keysOf_dictInsert]
  by_cases hk : k ∈ m.map Prod.fst
  · rw [if_pos hk]
    constructor
    · exact Or.inl
    · rintro (h | rfl)
      · exact h
      · exact hk
  · rw [if_neg hk]
    simp

theorem foldl_keys_nodup (ps : List (List Char × List Char)) :
    ∀ m : List (List Char × List Char), (m.map Prod.fst).Nodup →
      ((ps.foldl (fun m p => dictInsert m p.1 p.2) m).map Prod.fst).Nodup := by
  induction ps with
  | nil => intro m h; simpa using h
  | cons p ps ih =>
    intro m h
    rw [List.foldl_cons]
    exact ih _ (keys_nodup_dictInsert m p.1 p.2 h)

theorem foldl_mem_keys (ps : List (List Char × List Char)) :
    ∀ (m : List (List Char × List Char)) (k : List Char),
      (k ∈ (ps.foldl (fun m p => dictInsert m p.1 p.2) m).map Prod.fst) ↔
        k ∈ m.map Prod.fst ∨ k ∈ ps.map Prod.fst := by
  induction ps with
  | nil => intro m k; simp
  | cons p ps ih =>
    intro m k
    rw [List.foldl_cons, ih, mem_keys_dictInsert]
    simp only [List.map_cons, List.mem_cons]
    tauto

theorem lookupVal_map_ne (m : List (List Char × List Char))
    (k v k' : List Char) (hne : k' ≠ k) :
    lookupVal (m.map (fun p => if p.1 = k then (k, v) else p)) k' =
      lookupVal m k' := by
  induction m with
  | nil => rfl
  | cons p m ih =>
    have hkk : ¬ k = k' := fun he => hne he.symm
    unfold lookupVal at *
    by_cases h : p.1 = k
    · rw [List.map_cons, if_pos h,
        List.find?_cons_of_neg _ (by simp [hkk]),
        List.find?_cons_of_neg _ (by simp [h, hkk]),
        ih]
    · by_cases hp : p.1 = k'
      · rw [List.map_cons, if_neg h,
          List.find?_cons_of_pos _ (by simp [hp]),
          List.find?_cons_of_pos _ (by simp [hp])]
      · rw [List.map_cons, if_neg h,
          List.find?_cons_of_neg _ (by simp [hp]),
          List.find?_cons_of_neg _ (by simp [hp]),
          ih]

theorem lookupVal_map_self (m : List (List Char × List Char))
    (k v : List Char) (hk : k ∈ m.map Prod.fst) :
    lookupVal (m.map (fun p => if p.1 = k then (k, v) else p)) k = some v := by
  induction m with
  | nil => simp at hk
  | cons p m ih =>
    unfold lookupVal at *
    by_cases h : p.1 = k
    · rw [List.map_cons, if_pos h, List.find?_cons_of_pos _ (by simp)]
      rfl
    · have hk' : k ∈ m.map Prod.fst := by
        rw [List.map_cons, List.mem_cons] at hk
        rcases hk with he | hm
        · exact absurd he.symm h
        · exact hm
      rw [List.map_cons, if_neg h,
        List.find?_cons_of_neg _ (by simp [h]), ih hk']

theorem lookupVal_append_single (m : List (List Char × List Char))
    (k v k' : List Char) (hk : k ∉ m.map Prod.fst) :
    lookupVal (m ++ [(k, v)]) k' =
      if k' = k then some v else lookupVal m k' := by
  induction m with
  | nil =>
    unfold lookupVal
    by_cases he : k' = k
    · subst he
      simp [List.find?]
    · have hke : ¬ k = k' := fun h => he h.symm
      rw [if_neg he]
      simp [List.find?, hke]
  | cons p m ih =>
    have hpk : p.1 ≠ k := by
      intro he
      exact hk (by simp [he])
    have hk' : k ∉ m.map Prod.fst := fun h => hk (by simp [h])
    unfold lookupVal at *
    by_cases hp : p.1 = k'
    · rw [List.cons_append,
        List.find?_cons_of_pos _ (by simp [hp]),
        List.find?_cons_of_pos _ (by simp [hp])]
      rw [if_neg (fun he => hpk (hp.trans he))]
    · rw [List.cons_append,
        List.find?_cons_of_neg _ (by simp [hp]),
        List.find?_cons_of_neg _ (by simp [hp]),
        ih hk']

theorem lookupVal_dictInsert (m : List (List Char × List Char))
    (k v k' : List Char) :
    lookupVal (dictInsert m k v) k' =
      if k' = k then some v else lookupVal m k' := by
  by_cases hk : k ∈ m.map Prod.fst
  · have ha : m.any (fun p => decide (p.1 = k)) = true :=
      (any_eq_mem_keys m k).mpr hk
    unfold dictInsert
    rw [if_pos ha]
    by_cases he : k' = k
    · subst he
      rw [if_pos rfl]
      exact lookupVal_map_self m k' v hk
    · rw [if_neg he]
      exact lookupVal_map_ne m k v k' he
  · have ha : ¬ m.any (fun p => decide (p.1 = k)) = true := by
      rw [any_eq_mem_keys]; exact hk
    unfold dictInsert
    rw [if_neg ha]
    exact lookupVal_append_single m k v k' hk

theorem lastAssoc_cons (p : List Char × List Char)
    (ps : List (List Char × List Char)) (k : List Char) :
    lastAssoc (p :: ps) k =
      match lastAssoc ps k with
      | some v => some v
      | none => if p.1 = k then some p.2 else none := by
  unfold lastAssoc
  rw [List.reverse_cons, List.find?_append]
  cases hf : ps.reverse.find? (fun q => decide (q.1 = k)) with
  | none =>
    by_cases hp : p.1 = k
    · simp [List.find?, hp]
    · simp [List.find?, hp]
  | some q => simp

theorem lookupVal_foldl (ps : List (List Char × List Char)) :
    ∀ (m : List (List Char × List Char)) (k : List Char),
      lookupVal (ps.foldl (fun m p => dictInsert m p.1 p.2) m) k =
        match lastAssoc ps k with
        | some v => some v
        | none => lookupVal m k := by
  induction ps with
  | nil => intro m k; simp [lastAssoc]
  | cons p ps ih =>
    intro m k
    rw [List.foldl_cons, ih, lastAssoc_cons, lookupVal_dictInsert]
    cases hf : lastAssoc ps k with
    | some v => simp
    | none =>
      simp only []
      by_cases hp : p.1 = k
      · rw [if_pos hp, if_pos hp.symm]
      · rw [if_neg hp, if_neg (fun he => hp he.symm)]

theorem lookupVal_of_mem (m : List (List Char × List Char))
    (hnd : (m.map Prod.fst).Nodup) :
    ∀ p ∈ m, lookupVal m p.1 = some p.2 := by
  induction m with
  | nil => intro p hp; cases hp
  | cons q m ih =>
    intro p hp
    rw [List.map_cons, List.nodup_cons] at hnd
    rcases List.mem_cons.mp hp with rfl | hp'
    · unfold lookupVal
      rw [List.find?_cons_of_pos _ (by simp)]
      rfl
    · have hq : ¬ q.1 = p.1 := by
        intro he
        exact hnd.1 (he ▸ List.mem_map.mpr ⟨p, hp', rfl⟩)
      unfold lookupVal
      rw [List.find?_cons_of_neg _ (by simp [hq])]
      exact ih hnd.2 p hp'

theorem automatedQuestions_keys_nodup (lines : List (List Char)) :
    ((automatedQuestions lines).map Prod.fst).Nodup :=
  foldl_keys_nodup _ [] (by simp)

theorem automatedQuestions_length (lines : List (List Char)) :
    (automatedQuestions lines).length = (templateLabels lines).toFinset.card := by
  have hnd := automatedQuestions_keys_nodup lines
  have hmem : ∀ k, k ∈ (automatedQuestions lines).map Prod.fst ↔
      k ∈ templateLabels lines := by
    intro k
    unfold automatedQuestions templateLabels
    rw [foldl_mem_keys]
    simp
  have hfs : ((automatedQuestions lines).map Prod.fst).toFinset =
      (templateLabels lines).toFinset := by
    ext k
    simp only [List.mem_toFinset]
    exact hmem k
  calc (automatedQuestions lines).length
      = ((automatedQuestions lines).map Prod.fst).length :=
        (List.length_map _ _).symm
    _ = ((automatedQuestions lines).map Prod.fst).toFinset.card :=
        (List.toFinset_card_of_nodup hnd).symm
    _ = (templateLabels lines).toFinset.card := by rw [hfs]

theorem automatedQuestions_lastAssoc (lines : List (List Char)) :
    ∀ p ∈ automatedQuestions lines,
      lastAssoc (templatePairs lines) p.1 = some p.2 := by
  intro p hp
  have hv := lookupVal_of_mem _ (automatedQuestions_keys_nodup lines) p hp
  have hfold := lookupVal_foldl (templatePairs lines) [] p.1
  unfold automatedQuestions at hv
  rw [hfold] at hv
  cases hf : lastAssoc (templatePairs lines) p.1 with
  | none => rw [hf] at hv; simp [lookupVal] at hv
  | some v => rw [hf] at hv; simpa using hv

/-- C9 (amended): after a successful transcription whose template source
has pairwise-distinct trimmed labels, exactly one QA entry per well-formed
template line is enqueued, each starting in status Queued with question text
`"<label>: <prompt>"` for its `(label, prompt)` entry.  (Duplicate labels
collapse in the dict; see the counterexample.) -/
theorem automated_questions_enqueued (lines : List (List Char))
    (hnodup : (templateLabels lines).Nodup) :
    (enqueuedQAEntries lines).length = (templatePairs lines).length ∧
    (∀ e ∈ enqueuedQAEntries lines, e.status = .queued) ∧
    (∀ e ∈ enqueuedQAEntries lines, ∃ p ∈ automatedQuestions lines,
      e.question = p.1 ++ String.toList ": " ++ p.2) := by
  refine ⟨?_, ?_, ?_⟩
  · rw [enqueuedQAEntries, List.length_map, automatedQuestions_length,
      List.toFinset_card_of_nodup hnodup, templateLabels, List.length_map]
  · intro e he
    obtain ⟨p, hp, rfl⟩ := List.mem_map.mp he
    rfl
  · intro e he
    obtain ⟨p, hp, rfl⟩ := List.mem_map.mp he
    exact ⟨p, hp, rfl⟩

/-- Template source for the C9 witness: two lines with distinct labels. -/
def c9DistinctLines : List (List Char) :=
  [String.toList "Keluhan | Apa keluhan utama?",
   String.toList "Obat | Obat apa yang diberikan?"]

/-- Witness for the amended C9 at a concrete distinct-label source. -/
theorem automated_questions_enqueued_witness :
    (enqueuedQAEntries c9DistinctLines).length =
      (templatePairs c9DistinctLines).length ∧
    (∀ e ∈ enqueuedQAEntries c9DistinctLines, e.status = .queued) ∧
    (∀ e ∈ enqueuedQAEntries c9DistinctLines,
      ∃ p ∈ automatedQuestions c9DistinctLines,
        e.question = p.1 ++ String.toList ": " ++ p.2) :=
  automated_questions_enqueued c9DistinctLines (by decide)

/-- Template source for the C9 counterexample: two well-formed lines that
share the trimmed label `Alergi`. -/
def c9Lines : List (List Char) :=
  [String.toList "Alergi | Apa riwayat alergi?",
   String.toList "Alergi | Ada alergi obat?"]

/-- C9 counterexample: a source with two template entries enqueues only one
QA entry, refuting "exactly N QA jobs for N template entries". -/
theorem automated_questions_count_counterexample :
    (templatePairs c9Lines).length = 2 ∧
    (enqueuedQAEntries c9Lines).length = 1 :=
  ⟨by decide, by decide⟩

/-- C10: when well-formed template lines share a trimmed label, only one QA
entry is enqueued per label (the dict keys are pairwise distinct), the
retained prompt for each label is that of the last such line, and the number
of enqueued entries equals the number of distinct trimmed labels.  All
entries start Queued. -/
theorem duplicate_labels_collapse (lines : List (List Char))
    (_hdup : ¬ (templateLabels lines).Nodup) :
    ((automatedQuestions lines).map Prod.fst).Nodup ∧
    (enqueuedQAEntries lines).length = (templateLabels lines).toFinset.card ∧
    (∀ p ∈ automatedQuestions lines,
      lastAssoc (templatePairs lines) p.1 = some p.2) ∧
    (∀ e ∈ enqueuedQAEntries lines, e.status = .queued) := by
  refine ⟨automatedQuestions_keys_nodup lines, ?_,
    automatedQuestions_lastAssoc lines, ?_⟩
  · rw [enqueuedQAEntries, List.length_map, automatedQuestions_length]
  · intro e he
    obtain ⟨p, hp, rfl⟩ := List.mem_map.mp he
    rfl

/-- Template source for the C10 witness: duplicate `Diagnosa` labels. -/
def c10Lines : List (List Char) :=
  [String.toList "Diagnosa | Apa diagnosanya?",
   String.toList "Diagnosa | Diagnosa akhir apa?"]

/-- Witness for C10 at a concrete duplicate-label source. -/
theorem duplicate_labels_collapse_witness :
    ((automatedQuestions c10Lines).map Prod.fst).Nodup ∧
    (enqueuedQAEntries c10Lines).length =
      (templateLabels c10Lines).toFinset.card ∧
    (∀ p ∈ automatedQuestions c10Lines,
      lastAssoc (templatePairs c10Lines) p.1 = some p.2) ∧
    (∀ e ∈ enqueuedQAEntries c10Lines, e.status = .queued) :=
  duplicate_labels_collapse c10Lines (by decide)

end Healthvoice
